import Mathlib

/-!
Verification of the simplex-grid enumeration library
(`simplex_grid.py` and `simplex_grid_gen.py`).

The development shallowly embeds the Python source:

* `num_compositions m n` embeds `num_compositions`, including the exact
  integer binomial routine `scipy.misc.comb(N, k, exact=True)` of
  scipy v0.15.0 (`comb`, `combVal`) that the source delegates to.
* `simplex_grid m n` embeds the batch enumerator (the Nijenhuis-Wilf
  loop over a working vector `x` and pointer `h`).
* `simplex_index` and `simplex_index_rec` embed the two rankers.
* `genInit`/`genAdvance`/`genRun`/`genNth` embed the generator
  `SimplexGrid.generate`, and `SimplexGrid.make`/`SimplexGrid.getitem`
  embed the facade constructor and `__getitem__`.

Vectors are `List ℤ` (Python/numpy integers); array reads and writes go
through `npGet`/`npSet`, which implement numpy's negative-index
wrap-around.  The mathematical reference model is `compositions m n`,
the lexicographic list of all m-part compositions of n.
-/

/-- Python floor division `//` on integers. -/
def pyFloorDiv (a b : ℤ) : ℤ := Int.fdiv a b

/-- Value of `val` after `j` iterations of the loop in
`scipy.misc.comb(N, k, exact=True)` (scipy v0.15.0):
`for j in xrange(min(k, N-k)): val = (val*(N-j))//(j+1)`. -/
def combVal (N : ℤ) : ℕ → ℤ
  | 0 => 1
  | j + 1 => pyFloorDiv (combVal N j * (N - j)) (j + 1)

/-- `scipy.misc.comb(N, k, exact=True)` (scipy v0.15.0, the routine the
source's comment points at): returns 0 when `k > N`, `N < 0` or `k < 0`,
otherwise computes the binomial coefficient by the exact product loop. -/
def comb (N k : ℤ) : ℤ :=
  if k > N ∨ N < 0 ∨ k < 0 then 0 else combVal N (min k (N - k)).toNat

/-- `num_compositions(m, n)` from `simplex_grid.py`:
`scipy.misc.comb(n+m-1, m-1, exact=True)`. -/
def num_compositions (m n : ℤ) : ℤ := comb (n + m - 1) (m - 1)

lemma combVal_eq_choose (N : ℤ) (hN : 0 ≤ N) :
    ∀ j : ℕ, j ≤ N.toNat → combVal N j = (Nat.choose N.toNat j : ℤ) := by
  intro j
  induction j with
  | zero => intro _; simp [combVal]
  | succ j ih =>
    intro hj
    have hjN : j ≤ N.toNat := Nat.le_of_succ_le hj
    have hNj : (N : ℤ) - (j : ℤ) = ((N.toNat - j : ℕ) : ℤ) := by
      have := Int.toNat_of_nonneg hN
      omega
    have hmul : (Nat.choose N.toNat j : ℤ) * ((N.toNat - j : ℕ) : ℤ)
        = ((Nat.choose N.toNat (j + 1) * (j + 1) : ℕ) : ℤ) := by
      rw [← Nat.cast_mul, Nat.choose_succ_right_eq]
    rw [combVal, ih hjN, pyFloorDiv, Int.fdiv_eq_ediv _ (by positivity), hNj, hmul]
    push_cast
    exact Int.mul_ediv_cancel _ (by positivity)

lemma comb_eq_choose (N k : ℤ) (hk : 0 ≤ k) (hkN : k ≤ N) :
    comb N k = (Nat.choose N.toNat k.toNat : ℤ) := by
  have hN : 0 ≤ N := le_trans hk hkN
  rw [comb, if_neg (by omega)]
  rcases le_or_lt k (N - k) with hmin | hmin
  · rw [min_eq_left hmin]
    exact combVal_eq_choose N hN k.toNat (by omega)
  · rw [min_eq_right (le_of_lt hmin)]
    have h1 : (N - k).toNat = N.toNat - k.toNat := by omega
    have h2 : k.toNat ≤ N.toNat := by omega
    rw [combVal_eq_choose N hN (N - k).toNat (by omega), h1, Nat.choose_symm h2]

/-- For valid parameters the counter is the exact binomial coefficient. -/
lemma num_compositions_cast (m n : ℕ) (hm : 1 ≤ m) :
    num_compositions (m : ℤ) (n : ℤ) = (Nat.choose (n + m - 1) (m - 1) : ℤ) := by
  rw [num_compositions, comb_eq_choose _ _ (by omega) (by omega)]
  congr 2 <;> omega

lemma num_compositions_succ_cast (m n : ℕ) :
    num_compositions ((m + 1 : ℕ) : ℤ) (n : ℤ) = (Nat.choose (n + m) m : ℤ) := by
  rw [num_compositions_cast (m + 1) n (by omega)]
  have h1 : n + (m + 1) - 1 = n + m := by omega
  have h2 : (m + 1) - 1 = m := by omega
  rw [h1, h2]

lemma num_compositions_zero (m : ℕ) :
    num_compositions ((m + 1 : ℕ) : ℤ) (0 : ℤ) = 1 := by
  have h := num_compositions_succ_cast m 0
  simpa using h

lemma num_compositions_one (n : ℕ) :
    num_compositions ((1 : ℕ) : ℤ) (n : ℤ) = 1 := by
  have h := num_compositions_succ_cast 0 n
  simpa using h

/-- Pascal identity in counter form: the number of (m+2)-part compositions
of sum `s` minus those of sum `s-1` is the number of (m+1)-part
compositions of `s`. -/
lemma num_compositions_sub (m s : ℕ) (hs : 1 ≤ s) :
    num_compositions ((m + 2 : ℕ) : ℤ) (s : ℤ) -
      num_compositions ((m + 2 : ℕ) : ℤ) ((s : ℤ) - 1) =
    num_compositions ((m + 1 : ℕ) : ℤ) (s : ℤ) := by
  have h1 : ((s : ℤ) - 1) = ((s - 1 : ℕ) : ℤ) := by omega
  rw [h1, num_compositions_succ_cast (m + 1) s, num_compositions_succ_cast (m + 1) (s - 1),
    num_compositions_succ_cast m s]
  have h2 : s + (m + 1) = (s + m) + 1 := by omega
  have h3 : (s - 1) + (m + 1) = s + m := by omega
  rw [h2, h3, Nat.choose_succ_succ (s + m) m]
  push_cast
  ring

/-- Hockey-stick partial sums, in counter-friendly difference form. -/
lemma sum_choose_range (m n : ℕ) :
    ∀ a : ℕ, a ≤ n + 1 →
      ((List.range a).map (fun k => (Nat.choose (n - k + m) m : ℤ))).sum =
        (Nat.choose (n + m + 1) (m + 1) : ℤ) -
          (Nat.choose ((n + 1 - a) + m) (m + 1) : ℤ) := by
  intro a
  induction a with
  | zero =>
    intro _
    have h0 : n + 1 + m = n + m + 1 := by omega
    simp [h0]
  | succ a ih =>
    intro ha
    rw [List.range_succ, List.map_append, List.sum_append, ih (by omega)]
    have h1 : (n + 1 - a) + m = ((n - a) + m) + 1 := by omega
    have h2 : n + 1 - (a + 1) = n - a := by omega
    rw [h1, h2, Nat.choose_succ_succ ((n - a) + m) m]
    simp only [Nat.succ_eq_add_one, List.map_cons, List.map_nil, List.sum_cons, List.sum_nil,
      add_zero]
    push_cast
    ring

/-- Reference model: the list of all m-part compositions of n in
lexicographic order (first coordinate varies slowest).  Entries are `ℤ`
to match the embedded numpy vectors. -/
def compositions : ℕ → ℕ → List (List ℤ)
  | 0, n => if n = 0 then [[]] else []
  | m + 1, n =>
    (List.range (n + 1)).flatMap (fun k => (compositions m (n - k)).map (fun c => (k : ℤ) :: c))

lemma compositions_one (n : ℕ) : compositions 1 n = [[(n : ℤ)]] := by
  show (List.range (n + 1)).flatMap
      (fun k => (compositions 0 (n - k)).map (fun c => (k : ℤ) :: c)) = [[(n : ℤ)]]
  rw [List.range_succ, List.flatMap_append]
  have h1 : (List.range n).flatMap
      (fun k => (compositions 0 (n - k)).map (fun c => (k : ℤ) :: c)) = [] := by
    rw [List.flatMap_eq_nil_iff]
    intro k hk
    rw [List.mem_range] at hk
    have : ¬ (n - k = 0) := by omega
    simp [compositions, this]
  rw [h1]
  simp [compositions]

lemma compositions_zero_right : ∀ m : ℕ, compositions m 0 = [List.replicate m (0 : ℤ)]
  | 0 => by simp [compositions]
  | m + 1 => by
    show (List.range 1).flatMap
        (fun k => (compositions m (0 - k)).map (fun c => (k : ℤ) :: c)) = _
    have hr1 : List.range 1 = [0] := rfl
    rw [hr1, List.flatMap_singleton, compositions_zero_right m]
    simp [List.replicate_succ]

lemma compositions_mem (m : ℕ) : ∀ (n : ℕ) (y : List ℤ), y ∈ compositions (m + 1) n →
    y.length = m + 1 ∧ y.sum = (n : ℤ) ∧ ∀ e ∈ y, 0 ≤ e := by
  induction m with
  | zero =>
    intro n y hy
    rw [compositions_one, List.mem_singleton] at hy
    subst hy
    refine ⟨rfl, by simp, ?_⟩
    intro e he
    rw [List.mem_singleton] at he
    subst he
    positivity
  | succ m ih =>
    intro n y hy
    rw [show compositions (m + 2) n = (List.range (n + 1)).flatMap
        (fun k => (compositions (m + 1) (n - k)).map (fun c => (k : ℤ) :: c)) from rfl,
      List.mem_flatMap] at hy
    obtain ⟨k, hk, hy⟩ := hy
    rw [List.mem_range] at hk
    rw [List.mem_map] at hy
    obtain ⟨c, hc, rfl⟩ := hy
    obtain ⟨hlen, hsum, hpos⟩ := ih (n - k) c hc
    refine ⟨by simp [hlen], ?_, ?_⟩
    · rw [List.sum_cons, hsum]
      have : (k : ℤ) + ((n - k : ℕ) : ℤ) = (n : ℤ) := by omega
      exact this
    · intro e he
      rw [List.mem_cons] at he
      rcases he with rfl | he
      · positivity
      · exact hpos e he

lemma compositions_length (m : ℕ) :
    ∀ n : ℕ, (compositions (m + 1) n).length = Nat.choose (n + m) m := by
  induction m with
  | zero => intro n; rw [compositions_one]; simp
  | succ m ih =>
    intro n
    rw [show compositions (m + 2) n = (List.range (n + 1)).flatMap
        (fun k => (compositions (m + 1) (n - k)).map (fun c => (k : ℤ) :: c)) from rfl,
      List.length_flatMap]
    have hmap : List.map (List.length ∘ fun k => (compositions (m + 1) (n - k)).map
        (fun c => (k : ℤ) :: c)) (List.range (n + 1)) =
        List.map (fun k => Nat.choose (n - k + m) m) (List.range (n + 1)) := by
      apply List.map_congr_left
      intro k _
      simp [ih (n - k)]
    rw [hmap]
    have hcast := sum_choose_range m n (n + 1) (by omega)
    have h2 : (n + 1 - (n + 1)) + m = m := by omega
    rw [h2, Nat.choose_eq_zero_of_lt (by omega : m < m + 1)] at hcast
    have hbridge : (((List.range (n + 1)).map (fun k => Nat.choose (n - k + m) m)).sum : ℤ)
        = ((List.range (n + 1)).map (fun k => (Nat.choose (n - k + m) m : ℤ))).sum := by
      rw [Nat.cast_list_sum, List.map_map]
      rfl
    have hfin : (((List.range (n + 1)).map (fun k => Nat.choose (n - k + m) m)).sum : ℤ)
        = ((Nat.choose (n + m + 1) (m + 1) : ℕ) : ℤ) := by
      rw [hbridge, hcast]
      push_cast
      ring
    have hgoal : ((List.range (n + 1)).map (fun k => Nat.choose (n - k + m) m)).sum
        = Nat.choose (n + m + 1) (m + 1) := by exact_mod_cast hfin
    rw [hgoal]
    have h3 : n + m + 1 = n + (m + 1) := by omega
    rw [h3]

lemma compositions_succ (m n : ℕ) : compositions (m + 1) n =
    (List.range (n + 1)).flatMap
      (fun k => (compositions m (n - k)).map (fun c => (k : ℤ) :: c)) := rfl

lemma compositions_ne_nil (m n : ℕ) : compositions (m + 1) n ≠ [] := by
  intro hnil
  have h := compositions_length m n
  rw [hnil] at h
  have hpos : 0 < Nat.choose (n + m) m := Nat.choose_pos (by omega)
  simp at h
  omega

lemma compositions_head (m : ℕ) : ∀ n : ℕ,
    (compositions (m + 1) n).head? = some (List.replicate m 0 ++ [(n : ℤ)]) := by
  induction m with
  | zero => intro n; rw [compositions_one]; simp
  | succ m ih =>
    intro n
    rw [compositions_succ, List.range_succ_eq_map, List.flatMap_cons, List.head?_append]
    have h0 : ((compositions (m + 1) (n - 0)).map (fun c => ((0 : ℕ) : ℤ) :: c)).head? =
        some (List.replicate (m + 1) 0 ++ [(n : ℤ)]) := by
      rw [List.head?_map, ih (n - 0)]
      simp [List.replicate_succ]
    rw [h0]
    rfl

lemma compositions_getLast (m : ℕ) (n : ℕ) :
    (compositions (m + 1) n).getLast? = some ((n : ℤ) :: List.replicate m 0) := by
  cases m with
  | zero => rw [compositions_one]; simp
  | succ m =>
    rw [compositions_succ, List.range_succ, List.flatMap_append, List.flatMap_singleton,
      List.getLast?_append]
    have hlast : ((compositions (m + 1) (n - n)).map (fun c => (n : ℤ) :: c)).getLast? =
        some ((n : ℤ) :: List.replicate (m + 1) 0) := by
      rw [Nat.sub_self, compositions_zero_right]
      rfl
    rw [hlast]
    rfl

/-- Strict lexicographic comparison of integer vectors, comparing
coordinates left to right. -/
def lexLt : List ℤ → List ℤ → Bool
  | _, [] => false
  | [], _ :: _ => true
  | a :: as, b :: bs => decide (a < b) || (decide (a = b) && lexLt as bs)

lemma lexLt_nil_right (l : List ℤ) : lexLt l [] = false := by
  cases l <;> rfl

lemma lexLt_cons_cons (a b : ℤ) (as bs : List ℤ) :
    lexLt (a :: as) (b :: bs) = (decide (a < b) || (decide (a = b) && lexLt as bs)) := rfl

lemma lexLt_irrefl : ∀ l : List ℤ, lexLt l l = false := by
  intro l
  induction l with
  | nil => rfl
  | cons a as ih => simp [lexLt_cons_cons, ih]

lemma lexLt_trans : ∀ l1 l2 l3 : List ℤ,
    lexLt l1 l2 = true → lexLt l2 l3 = true → lexLt l1 l3 = true := by
  intro l1
  induction l1 with
  | nil =>
    intro l2 l3 h12 h23
    cases l3 with
    | nil => rw [lexLt_nil_right] at h23; exact absurd h23 (by simp)
    | cons c cs => rfl
  | cons a as ih =>
    intro l2 l3 h12 h23
    cases l2 with
    | nil => rw [lexLt_nil_right] at h12; exact absurd h12 (by simp)
    | cons b bs =>
      cases l3 with
      | nil => rw [lexLt_nil_right] at h23; exact absurd h23 (by simp)
      | cons c cs =>
        rw [lexLt_cons_cons] at h12 h23 ⊢
        simp only [Bool.or_eq_true, Bool.and_eq_true, decide_eq_true_eq] at h12 h23 ⊢
        rcases h12 with h12 | ⟨rfl, h12⟩
        · rcases h23 with h23 | ⟨rfl, h23⟩
          · exact Or.inl (by omega)
          · exact Or.inl h12
        · rcases h23 with h23 | ⟨rfl, h23⟩
          · exact Or.inl h23
          · exact Or.inr ⟨rfl, ih bs cs h12 h23⟩

instance : IsTrans (List ℤ) (fun a b => lexLt a b = true) :=
  ⟨fun a b c => lexLt_trans a b c⟩

lemma lexLt_asymm {l1 l2 : List ℤ} (h : lexLt l1 l2 = true) : lexLt l2 l1 = false := by
  by_contra hcon
  have h2 : lexLt l2 l1 = true := by
    cases hc : lexLt l2 l1
    · exact absurd hc hcon
    · rfl
  have := lexLt_trans l1 l2 l1 h h2
  rw [lexLt_irrefl] at this
  exact absurd this (by simp)

lemma lexLt_append_lt : ∀ (q : List ℤ) (a b : ℤ) (u w : List ℤ), a < b →
    lexLt (q ++ a :: u) (q ++ b :: w) = true := by
  intro q
  induction q with
  | nil =>
    intro a b u w hab
    simp [lexLt_cons_cons, hab]
  | cons c q ih =>
    intro a b u w hab
    simp only [List.cons_append, lexLt_cons_cons]
    simp [ih a b u w hab]

/-- In a strictly lex-sorted list, the number of entries smaller than the
entry at position `i` is exactly `i`. -/
lemma sorted_countP : ∀ (l : List (List ℤ)),
    List.Pairwise (fun a b => lexLt a b = true) l →
    ∀ i, i < l.length → l.countP (fun y => lexLt y (l.getD i [])) = i := by
  intro l
  induction l with
  | nil => intro _ i hi; simp at hi
  | cons c rest ih =>
    intro hp i hi
    rw [List.pairwise_cons] at hp
    obtain ⟨hc, hrest⟩ := hp
    cases i with
    | zero =>
      rw [List.getD_cons_zero, List.countP_cons, lexLt_irrefl]
      have hzero : rest.countP (fun y => lexLt y c) = 0 := by
        rw [List.countP_eq_zero]
        intro y hy
        simp [lexLt_asymm (hc y hy)]
      rw [hzero]
      simp
    | succ i =>
      rw [List.getD_cons_succ, List.countP_cons]
      have hi' : i < rest.length := by simpa using hi
      have hmem : rest.getD i [] ∈ rest := by
        rw [List.getD_eq_getElem rest [] hi']
        exact List.getElem_mem hi'
      rw [ih hrest i hi', hc _ hmem]
      simp

/-- The relation between consecutive compositions in lexicographic order:
the rightmost nonzero coordinate `v` (at offset `|q|+1`) is zeroed, the
coordinate to its left is incremented, and `v - 1` is placed in the last
coordinate. -/
def StepRel (x y : List ℤ) : Prop :=
  ∃ q : List ℤ, ∃ a v : ℤ, ∃ t : ℕ,
    0 ≤ a ∧ 1 ≤ v ∧ x = q ++ a :: v :: List.replicate t 0 ∧
    y = q ++ (a + 1) :: (List.replicate t 0 ++ [v - 1])

lemma StepRel.lexLt_of {x y : List ℤ} (h : StepRel x y) : lexLt x y = true := by
  obtain ⟨q, a, v, t, _, _, rfl, rfl⟩ := h
  exact lexLt_append_lt q a (a + 1) _ _ (by omega)

lemma StepRel.cons {k : ℤ} {c c' : List ℤ} (h : StepRel c c') : StepRel (k :: c) (k :: c') := by
  obtain ⟨q, a, v, t, h1, h2, rfl, rfl⟩ := h
  exact ⟨k :: q, a, v, t, h1, h2, rfl, rfl⟩

lemma option_some_or {α : Type} (a : α) (o : Option α) : (some a).or o = some a := rfl

lemma compositions_chain (m : ℕ) : ∀ n : ℕ, List.Chain' StepRel (compositions (m + 1) n) := by
  induction m with
  | zero =>
    intro n
    rw [compositions_one]
    exact List.chain'_singleton _
  | succ m ih =>
    intro n
    rw [compositions_succ]
    have hblock : ∀ k : ℕ, List.Chain' StepRel
        ((compositions (m + 1) (n - k)).map (fun c => (k : ℤ) :: c)) := by
      intro k
      rw [List.chain'_map]
      exact (ih (n - k)).imp (fun _ _ h => StepRel.cons h)
    have hlink : ∀ j : ℕ, j < n →
        StepRel ((j : ℤ) :: ((n - j : ℕ) : ℤ) :: List.replicate m 0)
          (((j + 1 : ℕ) : ℤ) :: (List.replicate m 0 ++ [((n - (j + 1) : ℕ) : ℤ)])) := by
      intro j hj
      refine ⟨[], (j : ℤ), ((n - j : ℕ) : ℤ), m, by positivity, by
        have : 1 ≤ n - j := by omega
        exact_mod_cast this, by simp, ?_⟩
      have h1 : ((j + 1 : ℕ) : ℤ) = (j : ℤ) + 1 := by push_cast; ring
      have h2 : ((n - (j + 1) : ℕ) : ℤ) = ((n - j : ℕ) : ℤ) - 1 := by omega
      rw [h1, h2]
      simp
    have haux : ∀ j : ℕ, j ≤ n + 1 → List.Chain' StepRel ((List.range j).flatMap
        (fun k => (compositions (m + 1) (n - k)).map (fun c => (k : ℤ) :: c))) := by
      intro j
      induction j with
      | zero => intro _; simp
      | succ j ihj =>
        intro hj
        rw [List.range_succ, List.flatMap_append, List.flatMap_singleton]
        refine List.Chain'.append (ihj (by omega)) (hblock j) ?_
        intro x hx y hy
        cases j with
        | zero => simp at hx
        | succ j' =>
          rw [List.range_succ, List.flatMap_append, List.flatMap_singleton,
            List.getLast?_append] at hx
          have hfj : ((compositions (m + 1) (n - j')).map
              (fun c => ((j' : ℕ) : ℤ) :: c)).getLast? =
              some ((j' : ℤ) :: (((n - j' : ℕ) : ℤ) :: List.replicate m 0)) := by
            rw [List.getLast?_map, compositions_getLast m (n - j')]
            rfl
          rw [hfj, option_some_or, Option.mem_some_iff] at hx
          have hfy : ((compositions (m + 1) (n - (j' + 1))).map
              (fun c => ((j' + 1 : ℕ) : ℤ) :: c)).head? =
              some (((j' + 1 : ℕ) : ℤ) :: (List.replicate m 0 ++ [((n - (j' + 1) : ℕ) : ℤ)])) := by
            rw [List.head?_map, compositions_head m (n - (j' + 1))]
            rfl
          rw [hfy, Option.mem_some_iff] at hy
          subst hx
          subst hy
          exact hlink j' (by omega)
    exact haux (n + 1) (by omega)

lemma compositions_pairwise (m n : ℕ) :
    List.Pairwise (fun a b => lexLt a b = true) (compositions (m + 1) n) := by
  have hchain : List.Chain' (fun a b => lexLt a b = true) (compositions (m + 1) n) :=
    (compositions_chain m n).imp (fun _ _ h => StepRel.lexLt_of h)
  exact List.chain'_iff_pairwise.mp hchain

lemma compositions_nodup (m n : ℕ) : (compositions (m + 1) n).Nodup := by
  refine (compositions_pairwise m n).imp ?_
  intro a b hab
  intro heq
  subst heq
  rw [lexLt_irrefl] at hab
  exact absurd hab (by simp)

/-- Prefix sums, modelling `np.cumsum`. -/
def cumsum : List ℤ → List ℤ
  | [] => []
  | a :: l => a :: (cumsum l).map (fun b => a + b)

/-- `np.cumsum(x[-1:0:-1])[::-1]` from `simplex_index`: the suffix sums
`x[i+1] + ... + x[m-1]` for `i = 0, ..., m-2`. -/
def decumsum (x : List ℤ) : List ℤ := (cumsum ((x.drop 1).reverse)).reverse

/-- The loop of `simplex_index`: scanning `decumsum` with `mi = m - i`,
stop at the first zero entry (the `break`), otherwise accumulate
`num_compositions(m - i, decumsum[i] - 1)`. -/
def silSub : ℕ → List ℤ → ℤ
  | _, [] => 0
  | mi, d :: rest => if d = 0 then 0 else num_compositions (mi : ℤ) (d - 1) + silSub (mi - 1) rest

/-- `simplex_index(x, m, n)` from `simplex_grid.py`: the iterative ranker,
`idx = num_compositions(m, n) - 1` minus the loop's subtractions. -/
def simplex_index (x : List ℤ) (m : ℕ) (n : ℤ) : ℤ :=
  if m = 1 then 0 else num_compositions (m : ℤ) n - 1 - silSub m (decumsum x)

/-- `simplex_index_rec(x, m, n)` from `simplex_grid.py`: the recursive
ranker. -/
def simplex_index_rec : List ℤ → ℕ → ℤ → ℤ
  | _, 0, _ => 0
  | _, 1, _ => 0
  | x, m + 2, n =>
    (if x.getD 0 0 = 0 then 0
      else num_compositions ((m + 2 : ℕ) : ℤ) n -
        num_compositions ((m + 2 : ℕ) : ℤ) (n - x.getD 0 0)) +
    simplex_index_rec (x.drop 1) (m + 1) (if x.getD 0 0 = 0 then n else n - x.getD 0 0)

lemma cumsum_append_singleton (l : List ℤ) (a : ℤ) :
    cumsum (l ++ [a]) = cumsum l ++ [l.sum + a] := by
  induction l with
  | nil => simp [cumsum]
  | cons c l ih =>
    rw [List.cons_append,
      show cumsum (c :: (l ++ [a])) = c :: (cumsum (l ++ [a])).map (fun b => c + b) from rfl,
      ih, List.map_append]
    simp [cumsum, add_assoc]

lemma decumsum_single (x0 : ℤ) : decumsum [x0] = [] := rfl

lemma decumsum_cons (x0 r0 : ℤ) (rest : List ℤ) :
    decumsum (x0 :: r0 :: rest) = ((r0 :: rest).sum) :: decumsum (r0 :: rest) := by
  show (cumsum ((r0 :: rest).reverse)).reverse = _
  rw [List.reverse_cons, cumsum_append_singleton, List.reverse_append]
  simp [decumsum, List.sum_reverse, add_comm]

lemma simplex_index_rec_cons (x0 : ℤ) (xs : List ℤ) (m : ℕ) (n : ℤ) :
    simplex_index_rec (x0 :: xs) (m + 2) n =
      (if x0 = 0 then 0
        else num_compositions ((m + 2 : ℕ) : ℤ) n -
          num_compositions ((m + 2 : ℕ) : ℤ) (n - x0)) +
      simplex_index_rec xs (m + 1) (if x0 = 0 then n else n - x0) := rfl

lemma simplex_index_rec_nil (m : ℕ) (n : ℤ) :
    simplex_index_rec ([] : List ℤ) (m + 2) n = simplex_index_rec [] (m + 1) n := by
  show (if (0 : ℤ) = 0 then 0 else _) + simplex_index_rec [] (m + 1) (if (0 : ℤ) = 0 then n else n - 0) = _
  simp

lemma simplex_index_rec_zeros : ∀ (m : ℕ) (l : List ℤ), (∀ e ∈ l, e = 0) →
    simplex_index_rec l m 0 = 0 := by
  intro m
  induction m with
  | zero => intro l _; rfl
  | succ m ih =>
    intro l hl
    cases m with
    | zero => rfl
    | succ m' =>
      cases l with
      | nil =>
        rw [simplex_index_rec_nil]
        exact ih [] (by intro e he; simp at he)
      | cons a l' =>
        have ha : a = 0 := hl a (by simp)
        subst ha
        rw [simplex_index_rec_cons]
        simp [ih l' (fun e he => hl e (by simp [he]))]

lemma all_zero_of_sum_zero {l : List ℤ} (hpos : ∀ e ∈ l, 0 ≤ e) (hsum : l.sum = 0) :
    ∀ e ∈ l, e = 0 := by
  induction l with
  | nil => intro e he; simp at he
  | cons a l ih =>
    rw [List.sum_cons] at hsum
    have ha : 0 ≤ a := hpos a (by simp)
    have hl : 0 ≤ l.sum := List.sum_nonneg (fun e he => hpos e (by simp [he]))
    have ha0 : a = 0 := by omega
    have hl0 : l.sum = 0 := by omega
    intro e he
    rcases List.mem_cons.mp he with rfl | he
    · exact ha0
    · exact ih (fun e he => hpos e (by simp [he])) hl0 e he

lemma silSub_nil (mi : ℕ) : silSub mi [] = 0 := rfl

lemma silSub_cons (mi : ℕ) (d : ℤ) (rest : List ℤ) :
    silSub mi (d :: rest) =
      if d = 0 then 0 else num_compositions (mi : ℤ) (d - 1) + silSub (mi - 1) rest := rfl

/-- Core identity behind the two rankers' agreement: on a valid
composition the iterative ranker's value
`num_compositions(m, n) - 1 - (loop subtractions)` coincides with the
recursive ranker. -/
lemma iter_sub_eq_rec : ∀ (m : ℕ) (n : ℕ) (x : List ℤ), x.length = m + 1 →
    (∀ e ∈ x, 0 ≤ e) → x.sum = (n : ℤ) →
    num_compositions ((m + 1 : ℕ) : ℤ) (n : ℤ) - 1 - silSub (m + 1) (decumsum x) =
      simplex_index_rec x (m + 1) (n : ℤ) := by
  intro m
  induction m with
  | zero =>
    intro n x hlen _ _
    obtain ⟨x0, rfl⟩ : ∃ x0, x = [x0] := by
      cases x with
      | nil => simp at hlen
      | cons a l =>
        cases l with
        | nil => exact ⟨a, rfl⟩
        | cons b l' => simp at hlen
    rw [decumsum_single, silSub_nil, num_compositions_one]
    show (1 : ℤ) - 1 - 0 = 0
    ring
  | succ m ih =>
    intro n x hlen hpos hsum
    obtain ⟨x0, r0, rest, rfl⟩ : ∃ x0 r0 rest, x = x0 :: r0 :: rest := by
      cases x with
      | nil => simp at hlen
      | cons a l =>
        cases l with
        | nil => simp at hlen
        | cons b l' => exact ⟨a, b, l', rfl⟩
    have hx0 : 0 ≤ x0 := hpos x0 (by simp)
    have hs0pos : 0 ≤ (r0 :: rest).sum :=
      List.sum_nonneg (fun e he => hpos e (by simp [List.mem_cons] at he ⊢; tauto))
    have hsplit : x0 + (r0 :: rest).sum = (n : ℤ) := by
      rw [← hsum]
      simp
    have hlen' : (r0 :: rest).length = m + 1 := by simpa using hlen
    have hpos' : ∀ e ∈ (r0 :: rest), 0 ≤ e := by
      intro e he
      exact hpos e (by simp [List.mem_cons] at he ⊢; tauto)
    have hz2 : num_compositions ((m + 2 : ℕ) : ℤ) 0 = 1 := num_compositions_zero (m + 1)
    show num_compositions ((m + 2 : ℕ) : ℤ) (n : ℤ) - 1 -
        silSub (m + 2) (decumsum (x0 :: r0 :: rest)) =
      simplex_index_rec (x0 :: r0 :: rest) (m + 2) (n : ℤ)
    rw [decumsum_cons, simplex_index_rec_cons, silSub_cons,
      show m + 2 - 1 = m + 1 from rfl]
    by_cases h0 : (r0 :: rest).sum = 0
    · have hall0 : ∀ e ∈ (r0 :: rest), e = 0 := all_zero_of_sum_zero hpos' h0
      rw [if_pos h0]
      by_cases hx00 : x0 = 0
      · have hn0 : n = 0 := by omega
        subst hn0
        rw [if_pos hx00, if_pos hx00, Nat.cast_zero, hz2,
          simplex_index_rec_zeros (m + 1) (r0 :: rest) hall0]
        ring
      · rw [if_neg hx00, if_neg hx00]
        have hnx : (n : ℤ) - x0 = 0 := by omega
        rw [hnx, hz2, simplex_index_rec_zeros (m + 1) (r0 :: rest) hall0]
        ring
    · have hs1 : 1 ≤ (r0 :: rest).sum := by omega
      obtain ⟨s0n, hs0n⟩ : ∃ s0n : ℕ, (s0n : ℤ) = (r0 :: rest).sum :=
        ⟨(r0 :: rest).sum.toNat, by omega⟩
      have hih := ih s0n (r0 :: rest) hlen' hpos' (by rw [hs0n])
      have hsub := num_compositions_sub m s0n (by omega)
      rw [if_neg h0, ← hs0n]
      by_cases hx00 : x0 = 0
      · have hnn : n = s0n := by omega
        subst hnn
        rw [if_pos hx00, if_pos hx00]
        linarith [hih, hsub]
      · rw [if_neg hx00, if_neg hx00]
        have hnx : (n : ℤ) - x0 = (s0n : ℤ) := by omega
        rw [hnx]
        linarith [hih, hsub]

lemma simplex_index_eq_rec_aux (m n : ℕ) (x : List ℤ) (hm : 1 ≤ m) (hlen : x.length = m)
    (hpos : ∀ e ∈ x, 0 ≤ e) (hsum : x.sum = (n : ℤ)) :
    simplex_index x m (n : ℤ) = simplex_index_rec x m (n : ℤ) := by
  obtain ⟨m', rfl⟩ : ∃ m', m = m' + 1 := ⟨m - 1, by omega⟩
  cases m' with
  | zero =>
    rw [simplex_index, if_pos rfl]
    rfl
  | succ m'' =>
    rw [simplex_index, if_neg (by omega)]
    exact iter_sub_eq_rec (m'' + 1) n x hlen hpos hsum

lemma countP_flatMap (l : List ℕ) (f : ℕ → List (List ℤ)) (p : List ℤ → Bool) :
    (l.flatMap f).countP p = (l.map (fun k => (f k).countP p)).sum := by
  induction l with
  | nil => rfl
  | cons a l ih =>
    rw [List.flatMap_cons, List.countP_append, ih]
    simp

/-- Rank correctness of the recursive ranker: on a valid composition it
returns the number of compositions that lexicographically precede it. -/
lemma rec_eq_countP : ∀ (m : ℕ) (n : ℕ) (x : List ℤ), x.length = m + 1 →
    (∀ e ∈ x, 0 ≤ e) → x.sum = (n : ℤ) →
    simplex_index_rec x (m + 1) (n : ℤ) =
      (((compositions (m + 1) n).countP (fun y => lexLt y x)) : ℤ) := by
  intro m
  induction m with
  | zero =>
    intro n x hlen _ hsum
    obtain ⟨x0, rfl⟩ : ∃ x0, x = [x0] := by
      cases x with
      | nil => simp at hlen
      | cons a l =>
        cases l with
        | nil => exact ⟨a, rfl⟩
        | cons b l' => simp at hlen
    have hx0 : x0 = (n : ℤ) := by simpa using hsum
    subst hx0
    rw [compositions_one]
    simp [List.countP_cons, lexLt_irrefl]
    rfl
  | succ m ih =>
    intro n x hlen hpos hsum
    obtain ⟨x0, rest, rfl⟩ : ∃ x0 rest, x = x0 :: rest := by
      cases x with
      | nil => simp at hlen
      | cons a l => exact ⟨a, l, rfl⟩
    have hx0 : 0 ≤ x0 := hpos x0 (by simp)
    have hrestlen : rest.length = m + 1 := by simpa using hlen
    have hrestpos : ∀ e ∈ rest, 0 ≤ e := fun e he => hpos e (by simp [he])
    have hrestsum : 0 ≤ rest.sum := List.sum_nonneg hrestpos
    have hsplit : x0 + rest.sum = (n : ℤ) := by
      rw [← hsum]
      simp
    obtain ⟨a, ha⟩ : ∃ a : ℕ, (a : ℤ) = x0 := ⟨x0.toNat, by omega⟩
    have han : a ≤ n := by omega
    -- evaluate each block's count
    have hblockval : ∀ k : ℕ,
        ((compositions (m + 1) (n - k)).map (fun c => (k : ℤ) :: c)).countP
          (fun y => lexLt y (x0 :: rest)) =
        (if k < a then (compositions (m + 1) (n - k)).length
          else if k = a then (compositions (m + 1) (n - a)).countP (fun y => lexLt y rest)
          else 0) := by
      intro k
      rw [List.countP_map]
      by_cases hk1 : k < a
      · rw [if_pos hk1]
        apply List.countP_eq_length.mpr
        intro c _
        have : (k : ℤ) < x0 := by omega
        simp [Function.comp, lexLt_cons_cons, this]
      · by_cases hk2 : k = a
        · subst hk2
          rw [if_neg hk1, if_pos rfl]
          have hfun : ((fun y => lexLt y (x0 :: rest)) ∘ (fun c => (k : ℤ) :: c)) =
              (fun c => lexLt c rest) := by
            funext c
            have h1 : ¬ ((k : ℤ) < x0) := by omega
            have h2 : (k : ℤ) = x0 := ha
            simp [Function.comp, lexLt_cons_cons, h1, h2]
          rw [hfun]
        · rw [if_neg hk1, if_neg hk2]
          apply List.countP_eq_zero.mpr
          intro c _
          have h1 : ¬ ((k : ℤ) < x0) := by omega
          have h2 : ¬ ((k : ℤ) = x0) := by
            intro hc
            rw [← ha] at hc
            exact hk2 (by exact_mod_cast hc)
          simp [Function.comp, lexLt_cons_cons, h1, h2]
    -- total count as a natural number
    rw [compositions_succ, countP_flatMap,
      List.map_congr_left (fun k _ => hblockval k)]
    have hrangesplit : n + 1 = (a + 1) + (n - a) := by omega
    rw [hrangesplit, List.range_add, List.map_append, List.sum_append, List.range_succ,
      List.map_append, List.sum_append]
    have htail0 : (List.map
        (fun k => if k < a then (compositions (m + 1) (n - k)).length
          else if k = a then (compositions (m + 1) (n - a)).countP (fun y => lexLt y rest)
          else 0)
        (List.map (fun x => a + 1 + x) (List.range (n - a)))).sum = 0 := by
      apply List.sum_eq_zero
      intro v hv
      rw [List.mem_map] at hv
      obtain ⟨w, hw, rfl⟩ := hv
      rw [List.mem_map] at hw
      obtain ⟨j, _, rfl⟩ := hw
      rw [if_neg (by omega), if_neg (by omega)]
    have hmid : (List.map
        (fun k => if k < a then (compositions (m + 1) (n - k)).length
          else if k = a then (compositions (m + 1) (n - a)).countP (fun y => lexLt y rest)
          else 0) [a]).sum =
        (compositions (m + 1) (n - a)).countP (fun y => lexLt y rest) := by
      simp
    have hpre : (List.map
        (fun k => if k < a then (compositions (m + 1) (n - k)).length
          else if k = a then (compositions (m + 1) (n - a)).countP (fun y => lexLt y rest)
          else 0) (List.range a)) =
        List.map (fun k => Nat.choose (n - k + m) m) (List.range a) := by
      apply List.map_congr_left
      intro k hk
      rw [List.mem_range] at hk
      rw [if_pos hk, compositions_length]
    rw [htail0, hmid, hpre, add_zero]
    -- cast the prefix sum of block lengths to ℤ and close it
    have hS1 : (((List.range a).map (fun k => Nat.choose (n - k + m) m)).sum : ℤ) =
        (Nat.choose (n + m + 1) (m + 1) : ℤ) - (Nat.choose ((n + 1 - a) + m) (m + 1) : ℤ) := by
      rw [Nat.cast_list_sum, List.map_map]
      exact sum_choose_range m n a (by omega)
    -- left-hand side via the recursion equation and the inductive hypothesis
    rw [simplex_index_rec_cons]
    have hnNext : (if x0 = 0 then (n : ℤ) else (n : ℤ) - x0) = ((n - a : ℕ) : ℤ) := by
      by_cases hx00 : x0 = 0
      · have ha0 : a = 0 := by omega
        rw [if_pos hx00, ha0]
        simp
      · rw [if_neg hx00]
        omega
    have hih := ih (n - a) rest hrestlen hrestpos (by omega)
    have hA : num_compositions ((m + 2 : ℕ) : ℤ) (n : ℤ) =
        (Nat.choose (n + m + 1) (m + 1) : ℤ) := by
      rw [num_compositions_succ_cast (m + 1) n]
      rw [show n + (m + 1) = n + m + 1 from by omega]
    have hB : num_compositions ((m + 2 : ℕ) : ℤ) ((n - a : ℕ) : ℤ) =
        (Nat.choose ((n + 1 - a) + m) (m + 1) : ℤ) := by
      rw [num_compositions_succ_cast (m + 1) (n - a)]
      rw [show (n - a) + (m + 1) = (n + 1 - a) + m from by omega]
    have hidx0 : (if x0 = 0 then 0
        else num_compositions ((m + 2 : ℕ) : ℤ) (n : ℤ) -
          num_compositions ((m + 2 : ℕ) : ℤ) ((n : ℤ) - x0)) =
        (Nat.choose (n + m + 1) (m + 1) : ℤ) - (Nat.choose ((n + 1 - a) + m) (m + 1) : ℤ) := by
      by_cases hx00 : x0 = 0
      · have ha0 : a = 0 := by omega
        rw [if_pos hx00]
        have : (n + 1 - a) + m = n + m + 1 := by omega
        rw [this]
        ring
      · rw [if_neg hx00]
        have hxa : (n : ℤ) - x0 = ((n - a : ℕ) : ℤ) := by omega
        rw [hxa, hA, hB]
    rw [hidx0, hnNext, hih, Nat.cast_add, hS1]

/-- numpy 1-d integer array read `x[i]`, with Python negative-index
wrap-around. -/
def npGet (x : List ℤ) (i : ℤ) : ℤ :=
  if i < 0 then x.getD (x.length - (-i).toNat) 0 else x.getD i.toNat 0

/-- numpy 1-d integer array write `x[i] = v`, with Python negative-index
wrap-around. -/
def npSet (x : List ℤ) (i : ℤ) (v : ℤ) : List ℤ :=
  if i < 0 then x.set (x.length - (-i).toNat) v else x.set i.toNat v

/-- The common body of one enumeration step, shared verbatim by the batch
loop of `simplex_grid` and by `SimplexGrid.generate`, with `h` already
decremented: `val = x[h]; x[h] = 0; x[m-1] = val - 1; x[h-1] += 1`.
Returns the updated vector together with `val`. -/
def stepUpdate (m : ℕ) (x : List ℤ) (h : ℤ) : List ℤ × ℤ :=
  let val := npGet x h
  let x1 := npSet x h 0
  let x2 := npSet x1 ((m : ℤ) - 1) (val - 1)
  let x3 := npSet x2 (h - 1) (npGet x2 (h - 1) + 1)
  (x3, val)

/-- State of the batch enumerator `simplex_grid`: working vector,
pointer `h`, and the rows written so far. -/
structure BatchState where
  x : List ℤ
  h : ℤ
  out : List (List ℤ)

/-- One iteration of the main loop of `simplex_grid`:
`h -= 1; val = x[h]; x[h] = 0; x[m-1] = val - 1; x[h-1] += 1;
out[i] = x; if val != 1: h = m`. -/
def batchStep (m : ℕ) (s : BatchState) : BatchState :=
  let h := s.h - 1
  let u := stepUpdate m s.x h
  { x := u.1, h := if u.2 ≠ 1 then (m : ℤ) else h, out := s.out ++ [u.1] }

/-- `k` iterations of the main loop of `simplex_grid`. -/
def batchRun (m : ℕ) : ℕ → BatchState → BatchState
  | 0, s => s
  | k + 1, s => batchStep m (batchRun m k s)

/-- The state of `simplex_grid` just before its main loop:
`x = zeros(m); x[m-1] = n; out[0] = x; h = m`. -/
def batchInit (m n : ℕ) : BatchState :=
  let x := npSet (List.replicate m 0) ((m : ℤ) - 1) (n : ℤ)
  { x := x, h := (m : ℤ), out := [x] }

/-- `simplex_grid(m, n)` from `simplex_grid.py`: run the loop for
`i = 1, ..., L-1` (that is, `L-1` iterations) and return the rows. -/
def simplex_grid (m n : ℕ) : List (List ℤ) :=
  (batchRun m ((num_compositions (m : ℤ) (n : ℤ)).toNat - 1) (batchInit m n)).out

/-- State of the generator `SimplexGrid.generate`: the working vector and
the pointer `h`. -/
structure GenState where
  x : List ℤ
  h : ℤ

/-- The state of `SimplexGrid.generate` at its first `yield`. -/
def genInit (m n : ℕ) : GenState :=
  { x := npSet (List.replicate m 0) ((m : ℤ) - 1) (n : ℤ), h := (m : ℤ) }

/-- One resumption of `SimplexGrid.generate` after a `yield`:
`h -= 1; if h == 0: return` and otherwise the shared update followed by
the next `yield`.  `none` models the generator returning. -/
def genAdvance (m : ℕ) (s : GenState) : Option GenState :=
  let h := s.h - 1
  if h = 0 then none
  else
    let u := stepUpdate m s.x h
    some { x := u.1, h := if u.2 ≠ 1 then (m : ℤ) else h }

/-- `k` resumptions of the generator from state `s`; `none` once the
generator has returned. -/
def genRun (m : ℕ) : ℕ → GenState → Option GenState
  | 0, s => some s
  | k + 1, s => (genAdvance m s).bind (genRun m k)

/-- The value yielded by the generator at (0-based) step `i`, if the
generator reaches an `i`-th yield. -/
def genNth (m : ℕ) (s : GenState) (i : ℕ) : Option (List ℤ) := (genRun m i s).map GenState.x

/-- The generator yields its working numpy array itself, never a copy, so
the array object obtained from the `i`-th yield, observed after the
generator has advanced `k` further times, holds the working vector of
step `i + k` (empty if the generator has returned by then). -/
def yieldedValueLater (m n i k : ℕ) : List ℤ :=
  match genRun m (i + k) (genInit m n) with
  | some s => s.x
  | none => []

/-- The `IndexError('index out of range')` message raised by
`SimplexGrid.__getitem__`. -/
def indexOutOfRangeMsg : String := "index out of range"

/-- Python 2's `StopIteration`, raised by `gen.next()` on an exhausted
generator (unreachable for in-range indices). -/
def stopIterationMsg : String := "StopIteration"

/-- The facade class `SimplexGrid` of `simplex_grid_gen.py`: it stores
`m`, `n` and `size`. -/
structure SimplexGrid where
  m : ℤ
  n : ℤ
  size : ℤ

/-- `SimplexGrid.__init__`: store `m`, `n` and
`size = num_compositions(m, n)`. -/
def SimplexGrid.make (m n : ℤ) : SimplexGrid :=
  { m := m, n := n, size := num_compositions m n }

/-- `SimplexGrid.__getitem__`: raise `IndexError` unless
`0 <= idx < self.size`, otherwise run a fresh generator forward and
return its `idx`-th yield.  The facade is returned unchanged (the method
assigns no attribute). -/
def SimplexGrid.getitem (g : SimplexGrid) (idx : ℤ) : Except String (List ℤ) × SimplexGrid :=
  (if ¬ (0 ≤ idx ∧ idx < g.size) then Except.error indexOutOfRangeMsg
    else
      match genNth g.m.toNat (genInit g.m.toNat g.n.toNat) idx.toNat with
      | some v => Except.ok v
      | none => Except.error stopIterationMsg, g)

/-- `SimplexGrid.get_index`: delegate to `simplex_index`. -/
def SimplexGrid.get_index (g : SimplexGrid) (x : List ℤ) : ℤ :=
  simplex_index x g.m.toNat g.n

/-- Number of trailing zeros of the working vector; the loop pointer `h`
always equals `m` minus this quantity. -/
def trailZeros (x : List ℤ) : ℕ := (x.reverse.takeWhile (fun e => e == 0)).length

lemma takeWhile_replicate_cons (t : ℕ) (w : ℤ) (hw : w ≠ 0) (rest : List ℤ) :
    (List.replicate t (0 : ℤ) ++ w :: rest).takeWhile (fun e => e == 0) =
      List.replicate t (0 : ℤ) := by
  induction t with
  | zero => simp [List.takeWhile_cons, hw]
  | succ t ih => simp [List.replicate_succ, List.takeWhile_cons, ih]

lemma trailZeros_spec (y : List ℤ) (w : ℤ) (hw : w ≠ 0) (t : ℕ) :
    trailZeros (y ++ w :: List.replicate t 0) = t := by
  rw [trailZeros, List.reverse_append, List.reverse_cons, List.reverse_replicate,
    List.append_assoc]
  rw [List.singleton_append, takeWhile_replicate_cons t w hw]
  simp

lemma getD_append_len (q rest : List ℤ) (i : ℕ) (d : ℤ) :
    (q ++ rest).getD (q.length + i) d = rest.getD i d := by
  induction q with
  | nil => simp
  | cons c q ih =>
    rw [List.cons_append, List.length_cons]
    rw [show q.length + 1 + i = (q.length + i) + 1 from by omega, List.getD_cons_succ, ih]

lemma set_append_len (q rest : List ℤ) (i : ℕ) (v : ℤ) :
    (q ++ rest).set (q.length + i) v = q ++ rest.set i v := by
  induction q with
  | nil => simp
  | cons c q ih =>
    rw [List.cons_append, List.length_cons]
    rw [show q.length + 1 + i = (q.length + i) + 1 from by omega, List.set_cons_succ, ih]
    rfl

lemma replicate_set_last (t : ℕ) (w : ℤ) :
    (List.replicate (t + 1) (0 : ℤ)).set t w = List.replicate t 0 ++ [w] := by
  induction t with
  | zero => rfl
  | succ t ih =>
    rw [List.replicate_succ, List.set_cons_succ, ih]
    rw [List.replicate_succ]
    rfl

/-- Effect of the shared update body on a working vector decomposed
around its rightmost nonzero coordinate `v` (at offset `|q|+1`, with `t`
trailing zeros): `v` is zeroed, its left neighbour `a` is incremented,
and `v - 1` lands in the last coordinate. -/
lemma stepUpdate_eq (m : ℕ) (q : List ℤ) (a v : ℤ) (t : ℕ) (hm : m = q.length + 2 + t) :
    stepUpdate m (q ++ a :: v :: List.replicate t 0) ((q.length : ℤ) + 1) =
      (q ++ (a + 1) :: (List.replicate t 0 ++ [v - 1]), v) := by
  have h1 : ((q.length : ℤ) + 1).toNat = q.length + 1 := by omega
  have hget1 : npGet (q ++ a :: v :: List.replicate t 0) ((q.length : ℤ) + 1) = v := by
    rw [npGet, if_neg (by omega), h1, getD_append_len q _ 1]
    rfl
  have hset1 : npSet (q ++ a :: v :: List.replicate t 0) ((q.length : ℤ) + 1) 0 =
      q ++ a :: 0 :: List.replicate t 0 := by
    rw [npSet, if_neg (by omega), h1, set_append_len q _ 1 0]
    rfl
  have hset2 : npSet (q ++ a :: 0 :: List.replicate t 0) ((m : ℤ) - 1) (v - 1) =
      q ++ a :: (List.replicate t 0 ++ [v - 1]) := by
    rw [npSet, if_neg (by omega),
      show ((m : ℤ) - 1).toNat = q.length + (1 + t) from by omega,
      set_append_len q _ (1 + t) (v - 1)]
    congr 1
    rw [show (1 + t) = t + 1 from by omega, List.set_cons_succ,
      show (0 : ℤ) :: List.replicate t 0 = List.replicate (t + 1) 0 from rfl,
      replicate_set_last]
  have hget2 : npGet (q ++ a :: (List.replicate t 0 ++ [v - 1]))
      ((q.length : ℤ) + 1 - 1) = a := by
    rw [npGet, if_neg (by omega),
      show ((q.length : ℤ) + 1 - 1).toNat = q.length + 0 from by omega,
      getD_append_len q _ 0]
    rfl
  have hset3 : npSet (q ++ a :: (List.replicate t 0 ++ [v - 1]))
      ((q.length : ℤ) + 1 - 1) (a + 1) =
      q ++ (a + 1) :: (List.replicate t 0 ++ [v - 1]) := by
    rw [npSet, if_neg (by omega),
      show ((q.length : ℤ) + 1 - 1).toNat = q.length + 0 from by omega,
      set_append_len q _ 0 (a + 1)]
    rfl
  show (npSet (npSet (npSet (q ++ a :: v :: List.replicate t 0) ((q.length : ℤ) + 1) 0)
      ((m : ℤ) - 1) (npGet (q ++ a :: v :: List.replicate t 0) ((q.length : ℤ) + 1) - 1))
      ((q.length : ℤ) + 1 - 1)
      (npGet (npSet (npSet (q ++ a :: v :: List.replicate t 0) ((q.length : ℤ) + 1) 0)
        ((m : ℤ) - 1) (npGet (q ++ a :: v :: List.replicate t 0) ((q.length : ℤ) + 1) - 1))
        ((q.length : ℤ) + 1 - 1) + 1),
    npGet (q ++ a :: v :: List.replicate t 0) ((q.length : ℤ) + 1)) = _
  rw [hget1, hset1, hset2, hget2, hset3]

lemma batchStep_x (m : ℕ) (s : BatchState) :
    (batchStep m s).x = (stepUpdate m s.x (s.h - 1)).1 := rfl

lemma batchStep_h (m : ℕ) (s : BatchState) :
    (batchStep m s).h =
      if (stepUpdate m s.x (s.h - 1)).2 ≠ 1 then (m : ℤ) else s.h - 1 := rfl

lemma batchStep_out (m : ℕ) (s : BatchState) :
    (batchStep m s).out = s.out ++ [(stepUpdate m s.x (s.h - 1)).1] := rfl

lemma genAdvance_def (m : ℕ) (s : GenState) :
    genAdvance m s = if s.h - 1 = 0 then none
      else some ⟨(stepUpdate m s.x (s.h - 1)).1,
        if (stepUpdate m s.x (s.h - 1)).2 ≠ 1 then (m : ℤ) else s.h - 1⟩ := rfl

lemma batchRun_succ (m : ℕ) (k : ℕ) (s : BatchState) :
    batchRun m (k + 1) s = batchStep m (batchRun m k s) := rfl

lemma genRun_zero (m : ℕ) (s : GenState) : genRun m 0 s = some s := rfl

lemma genRun_succ_front (m : ℕ) (k : ℕ) (s : GenState) :
    genRun m (k + 1) s = (genAdvance m s).bind (genRun m k) := rfl

lemma genRun_succ (m : ℕ) (k : ℕ) (s : GenState) :
    genRun m (k + 1) s = (genRun m k s).bind (genAdvance m) := by
  induction k generalizing s with
  | zero =>
    rw [genRun_succ_front, genRun_zero]
    cases h : genAdvance m s <;> simp [genRun_zero, h]
  | succ k ih =>
    cases h : genAdvance m s with
    | none =>
      rw [genRun_succ_front, h, genRun_succ_front, h]
      rfl
    | some s' =>
      have h1 : genRun m (k + 1 + 1) s = genRun m (k + 1) s' := by
        rw [genRun_succ_front, h]
        rfl
      have h2 : genRun m (k + 1) s = genRun m k s' := by
        rw [genRun_succ_front, h]
        rfl
      rw [h1, h2, ih s']

lemma compositions_getD_mem (m n k : ℕ) (hk : k < (compositions (m + 1) n).length) :
    (compositions (m + 1) n).getD k [] ∈ compositions (m + 1) n := by
  rw [List.getD_eq_getElem _ _ hk]
  exact List.getElem_mem hk

lemma compositions_getD_zero (m n : ℕ) :
    (compositions (m + 1) n).getD 0 [] = List.replicate m 0 ++ [(n : ℤ)] := by
  have hne := compositions_ne_nil m n
  have hhead := compositions_head m n
  obtain ⟨y, tl, hl⟩ := List.exists_cons_of_ne_nil hne
  rw [hl] at hhead ⊢
  simp at hhead
  simpa using hhead

lemma compositions_steprel (m n k : ℕ) (hk1 : k + 1 < (compositions (m + 1) n).length) :
    StepRel ((compositions (m + 1) n).getD k [])
      ((compositions (m + 1) n).getD (k + 1) []) := by
  have hchain := compositions_chain m n
  rw [List.chain'_iff_get] at hchain
  have h := hchain k (by omega)
  rw [List.getD_eq_getElem _ _ (show k < _ from by omega), List.getD_eq_getElem _ _ hk1]
  simpa using h

lemma batch_inv (m n : ℕ) : ∀ k, k < (compositions (m + 1) n).length →
    (batchRun (m + 1) k (batchInit (m + 1) n)).x = (compositions (m + 1) n).getD k [] ∧
    (batchRun (m + 1) k (batchInit (m + 1) n)).out = (compositions (m + 1) n).take (k + 1) ∧
    (1 ≤ n → (batchRun (m + 1) k (batchInit (m + 1) n)).h =
      ((m + 1 : ℕ) : ℤ) - trailZeros ((compositions (m + 1) n).getD k [])) := by
  intro k
  induction k with
  | zero =>
    intro _
    have hx0 : (batchInit (m + 1) n).x = List.replicate m 0 ++ [(n : ℤ)] := by
      show npSet (List.replicate (m + 1) 0) (((m + 1 : ℕ) : ℤ) - 1) (n : ℤ) = _
      rw [npSet, if_neg (by omega),
        show ((((m + 1 : ℕ) : ℤ)) - 1).toNat = m from by omega]
      rw [show (m + 1) = m + 1 from rfl, replicate_set_last]
    have hgd := compositions_getD_zero m n
    refine ⟨?_, ?_, ?_⟩
    · show (batchInit (m + 1) n).x = _
      rw [hx0, hgd]
    · show (batchInit (m + 1) n).out = _
      have hout0 : (batchInit (m + 1) n).out = [(batchInit (m + 1) n).x] := rfl
      rw [hout0, hx0]
      have hne := compositions_ne_nil m n
      obtain ⟨y, tl, hl⟩ := List.exists_cons_of_ne_nil hne
      rw [hl] at hgd ⊢
      rw [List.getD_cons_zero] at hgd
      rw [← hgd]
      rfl
    · intro hn1
      show ((m + 1 : ℕ) : ℤ) = _
      rw [hgd,
        show List.replicate m (0 : ℤ) ++ [(n : ℤ)] =
          List.replicate m 0 ++ (n : ℤ) :: List.replicate 0 0 from rfl,
        trailZeros_spec _ _ (show (n : ℤ) ≠ 0 from by omega) 0]
      simp
  | succ k ih =>
    intro hk1
    have hk : k < (compositions (m + 1) n).length := by omega
    obtain ⟨ihx, ihout, ihh⟩ := ih hk
    have hn1 : 1 ≤ n := by
      by_contra hcon
      have hn0 : n = 0 := by omega
      subst hn0
      rw [compositions_zero_right] at hk1
      simp at hk1
    obtain ⟨qq, aa, vv, tt, haa, hvv, hxk, hxk1⟩ := compositions_steprel m n k hk1
    obtain ⟨hlenk, _, _⟩ := compositions_mem m n _ (compositions_getD_mem m n k hk)
    have hlen2 : m + 1 = qq.length + 2 + tt := by
      rw [hxk] at hlenk
      simp at hlenk
      omega
    have htzk : trailZeros ((compositions (m + 1) n).getD k []) = tt := by
      rw [hxk, show qq ++ aa :: vv :: List.replicate tt 0 =
        (qq ++ [aa]) ++ vv :: List.replicate tt 0 from by simp]
      exact trailZeros_spec _ vv (by omega) tt
    have hh := ihh hn1
    have hdec : (batchRun (m + 1) k (batchInit (m + 1) n)).h - 1 = (qq.length : ℤ) + 1 := by
      rw [hh, htzk]
      omega
    have hstep : stepUpdate (m + 1) (batchRun (m + 1) k (batchInit (m + 1) n)).x
        ((batchRun (m + 1) k (batchInit (m + 1) n)).h - 1) =
        (qq ++ (aa + 1) :: (List.replicate tt 0 ++ [vv - 1]), vv) := by
      rw [ihx, hxk, hdec]
      exact stepUpdate_eq (m + 1) qq aa vv tt hlen2
    refine ⟨?_, ?_, ?_⟩
    · rw [batchRun_succ, batchStep_x, hstep]
      exact hxk1.symm
    · rw [batchRun_succ, batchStep_out, hstep, ihout]
      have hsome : (compositions (m + 1) n)[k + 1]? =
          some ((compositions (m + 1) n).getD (k + 1) []) := by
        rw [List.getElem?_eq_getElem hk1, List.getD_eq_getElem _ _ hk1]
      conv_rhs => rw [show k + 1 + 1 = (k + 1) + 1 from rfl, List.take_succ, hsome]
      rw [hxk1]
      rfl
    · intro _
      rw [batchRun_succ, batchStep_h, hstep]
      by_cases hv1 : vv = 1
      · show (if vv ≠ 1 then ((m + 1 : ℕ) : ℤ)
          else (batchRun (m + 1) k (batchInit (m + 1) n)).h - 1) = _
        rw [if_neg (by simp [hv1]), hdec]
        have htz1 : trailZeros ((compositions (m + 1) n).getD (k + 1) []) = tt + 1 := by
          rw [hxk1, hv1, show (1 : ℤ) - 1 = 0 from by ring,
            show List.replicate tt (0 : ℤ) ++ [(0 : ℤ)] = List.replicate (tt + 1) 0 from
              (List.replicate_succ' tt (0 : ℤ)).symm]
          exact trailZeros_spec qq (aa + 1) (by omega) (tt + 1)
        rw [htz1]
        omega
      · show (if vv ≠ 1 then ((m + 1 : ℕ) : ℤ)
          else (batchRun (m + 1) k (batchInit (m + 1) n)).h - 1) = _
        rw [if_pos hv1]
        have htz0 : trailZeros ((compositions (m + 1) n).getD (k + 1) []) = 0 := by
          rw [hxk1, show qq ++ (aa + 1) :: (List.replicate tt 0 ++ [vv - 1]) =
            (qq ++ (aa + 1) :: List.replicate tt 0) ++ (vv - 1) :: List.replicate 0 0
            from by simp]
          exact trailZeros_spec _ (vv - 1) (by omega) 0
        rw [htz0]
        simp

lemma init_x_eq (m n : ℕ) :
    npSet (List.replicate (m + 1) (0 : ℤ)) (((m + 1 : ℕ) : ℤ) - 1) (n : ℤ) =
      List.replicate m 0 ++ [(n : ℤ)] := by
  rw [npSet, if_neg (by omega),
    show ((((m + 1 : ℕ) : ℤ)) - 1).toNat = m from by omega, replicate_set_last]

lemma toNat_num_compositions (m n : ℕ) :
    (num_compositions ((m + 1 : ℕ) : ℤ) (n : ℤ)).toNat = Nat.choose (n + m) m := by
  rw [num_compositions_succ_cast]
  simp

/-- The batch enumerator produces exactly the reference list of
compositions in lexicographic order. -/
lemma simplex_grid_eq_compositions (m n : ℕ) (hm : 1 ≤ m) :
    simplex_grid m n = compositions m n := by
  obtain ⟨m', rfl⟩ : ∃ m', m = m' + 1 := ⟨m - 1, by omega⟩
  have hL : (compositions (m' + 1) n).length = Nat.choose (n + m') m' := compositions_length m' n
  have hLpos : 0 < Nat.choose (n + m') m' := Nat.choose_pos (by omega)
  rw [simplex_grid, toNat_num_compositions]
  obtain ⟨_, hout, _⟩ := batch_inv m' n (Nat.choose (n + m') m' - 1) (by omega)
  rw [hout, show Nat.choose (n + m') m' - 1 + 1 = (compositions (m' + 1) n).length from by omega]
  exact List.take_length _

lemma gen_inv (m n : ℕ) : ∀ k, k < (compositions (m + 1) n).length →
    ∃ s : GenState, genRun (m + 1) k (genInit (m + 1) n) = some s ∧
      s.x = (compositions (m + 1) n).getD k [] ∧
      (1 ≤ n → s.h = ((m + 1 : ℕ) : ℤ) - trailZeros ((compositions (m + 1) n).getD k [])) := by
  intro k
  induction k with
  | zero =>
    intro _
    refine ⟨genInit (m + 1) n, genRun_zero _ _, ?_, ?_⟩
    · show npSet (List.replicate (m + 1) 0) (((m + 1 : ℕ) : ℤ) - 1) (n : ℤ) = _
      rw [init_x_eq, compositions_getD_zero]
    · intro hn1
      show ((m + 1 : ℕ) : ℤ) = _
      rw [compositions_getD_zero,
        show List.replicate m (0 : ℤ) ++ [(n : ℤ)] =
          List.replicate m 0 ++ (n : ℤ) :: List.replicate 0 0 from rfl,
        trailZeros_spec _ _ (show (n : ℤ) ≠ 0 from by omega) 0]
      simp
  | succ k ih =>
    intro hk1
    have hk : k < (compositions (m + 1) n).length := by omega
    obtain ⟨s, hrun, hsx, hsh⟩ := ih hk
    have hn1 : 1 ≤ n := by
      by_contra hcon
      have hn0 : n = 0 := by omega
      subst hn0
      rw [compositions_zero_right] at hk1
      simp at hk1
    obtain ⟨qq, aa, vv, tt, haa, hvv, hxk, hxk1⟩ := compositions_steprel m n k hk1
    obtain ⟨hlenk, _, _⟩ := compositions_mem m n _ (compositions_getD_mem m n k hk)
    have hlen2 : m + 1 = qq.length + 2 + tt := by
      rw [hxk] at hlenk
      simp at hlenk
      omega
    have htzk : trailZeros ((compositions (m + 1) n).getD k []) = tt := by
      rw [hxk, show qq ++ aa :: vv :: List.replicate tt 0 =
        (qq ++ [aa]) ++ vv :: List.replicate tt 0 from by simp]
      exact trailZeros_spec _ vv (by omega) tt
    have hh := hsh hn1
    have hdec : s.h - 1 = (qq.length : ℤ) + 1 := by
      rw [hh, htzk]
      omega
    have hstep : stepUpdate (m + 1) s.x (s.h - 1) =
        (qq ++ (aa + 1) :: (List.replicate tt 0 ++ [vv - 1]), vv) := by
      rw [hsx, hxk, hdec]
      exact stepUpdate_eq (m + 1) qq aa vv tt hlen2
    refine ⟨⟨qq ++ (aa + 1) :: (List.replicate tt 0 ++ [vv - 1]),
      if vv ≠ 1 then ((m + 1 : ℕ) : ℤ) else (qq.length : ℤ) + 1⟩, ?_, ?_, ?_⟩
    · rw [genRun_succ, hrun]
      show genAdvance (m + 1) s = _
      rw [genAdvance_def, if_neg (by rw [hdec]; omega), hstep, hdec]
    · exact hxk1.symm
    · intro _
      show (if vv ≠ 1 then ((m + 1 : ℕ) : ℤ) else (qq.length : ℤ) + 1) = _
      by_cases hv1 : vv = 1
      · rw [if_neg (by simp [hv1])]
        have htz1 : trailZeros ((compositions (m + 1) n).getD (k + 1) []) = tt + 1 := by
          rw [hxk1, hv1, show (1 : ℤ) - 1 = 0 from by ring,
            show List.replicate tt (0 : ℤ) ++ [(0 : ℤ)] = List.replicate (tt + 1) 0 from
              (List.replicate_succ' tt (0 : ℤ)).symm]
          exact trailZeros_spec qq (aa + 1) (by omega) (tt + 1)
        rw [htz1]
        omega
      · rw [if_pos hv1]
        have htz0 : trailZeros ((compositions (m + 1) n).getD (k + 1) []) = 0 := by
          rw [hxk1, show qq ++ (aa + 1) :: (List.replicate tt 0 ++ [vv - 1]) =
            (qq ++ (aa + 1) :: List.replicate tt 0) ++ (vv - 1) :: List.replicate 0 0
            from by simp]
          exact trailZeros_spec _ (vv - 1) (by omega) 0
        rw [htz0]
        simp

/-- The first `L` yields of the generator agree with the rows of the
batch enumerator. -/
lemma genNth_eq (m n k : ℕ) (hk : k < (compositions (m + 1) n).length) :
    genNth (m + 1) (genInit (m + 1) n) k = some ((compositions (m + 1) n).getD k []) := by
  obtain ⟨s, hrun, hsx, _⟩ := gen_inv m n k hk
  rw [genNth, hrun]
  simp [hsx]

lemma getitem_fst_eq (g : SimplexGrid) (idx : ℤ) :
    (g.getitem idx).1 =
      (if ¬ (0 ≤ idx ∧ idx < g.size) then Except.error indexOutOfRangeMsg
        else
          match genNth g.m.toNat (genInit g.m.toNat g.n.toNat) idx.toNat with
          | some v => Except.ok v
          | none => Except.error stopIterationMsg) := rfl

lemma make_size (m n : ℤ) : (SimplexGrid.make m n).size = num_compositions m n := rfl

/-- C1: For every m >= 1 and n >= 0, the sequence of rows returned by
`simplex_grid(m, n)` is strictly increasing in lexicographic order
(comparing coordinates left to right), and hence contains no duplicate
vectors. -/
theorem simplex_grid_lex_strict_increasing (m n : ℕ) (hm : 1 ≤ m) :
    List.Pairwise (fun a b => lexLt a b = true) (simplex_grid m n) ∧
      (simplex_grid m n).Nodup := by
  obtain ⟨m', rfl⟩ : ∃ m', m = m' + 1 := ⟨m - 1, by omega⟩
  rw [simplex_grid_eq_compositions (m' + 1) n (by omega)]
  exact ⟨compositions_pairwise m' n, compositions_nodup m' n⟩

theorem simplex_grid_lex_strict_increasing_witness :
    1 ≤ 3 ∧ (List.Pairwise (fun a b => lexLt a b = true) (simplex_grid 3 4) ∧
      (simplex_grid 3 4).Nodup) :=
  ⟨by decide, simplex_grid_lex_strict_increasing 3 4 (by decide)⟩

/-- C2: For every m >= 1 and n >= 0, `simplex_grid(m, n)` returns exactly
`num_compositions(m, n) = C(n+m-1, m-1)` rows, and every row is a vector
of length m whose entries are nonnegative integers summing exactly to n. -/
theorem simplex_grid_shape_and_count (m n : ℕ) (hm : 1 ≤ m) :
    (simplex_grid m n).length = Nat.choose (n + m - 1) (m - 1) ∧
    num_compositions (m : ℤ) (n : ℤ) = (Nat.choose (n + m - 1) (m - 1) : ℤ) ∧
    ∀ x ∈ simplex_grid m n, x.length = m ∧ (∀ e ∈ x, 0 ≤ e) ∧ x.sum = (n : ℤ) := by
  obtain ⟨m', rfl⟩ : ∃ m', m = m' + 1 := ⟨m - 1, by omega⟩
  rw [simplex_grid_eq_compositions (m' + 1) n (by omega)]
  have hidx1 : n + (m' + 1) - 1 = n + m' := by omega
  have hidx2 : (m' + 1) - 1 = m' := by omega
  rw [hidx1, hidx2]
  refine ⟨compositions_length m' n, num_compositions_succ_cast m' n, ?_⟩
  intro x hx
  obtain ⟨h1, h2, h3⟩ := compositions_mem m' n x hx
  exact ⟨h1, h3, h2⟩

theorem simplex_grid_shape_and_count_witness :
    1 ≤ 3 ∧ ((simplex_grid 3 4).length = Nat.choose (4 + 3 - 1) (3 - 1) ∧
      num_compositions (3 : ℤ) (4 : ℤ) = (Nat.choose (4 + 3 - 1) (3 - 1) : ℤ) ∧
      ∀ x ∈ simplex_grid 3 4, x.length = 3 ∧ (∀ e ∈ x, 0 ≤ e) ∧ x.sum = (4 : ℤ)) :=
  ⟨by decide, simplex_grid_shape_and_count 3 4 (by decide)⟩

/-- C3: For every m >= 1, n >= 0 and every index i in [0, L-1] with
`L = num_compositions(m, n)`, applying `simplex_index` to row i of
`simplex_grid(m, n)` (with the same m and n) returns i. -/
theorem simplex_grid_simplex_index_round_trip (m n i : ℕ) (hm : 1 ≤ m)
    (hi : (i : ℤ) < num_compositions (m : ℤ) (n : ℤ)) :
    simplex_index ((simplex_grid m n).getD i []) m (n : ℤ) = (i : ℤ) := by
  obtain ⟨m', rfl⟩ : ∃ m', m = m' + 1 := ⟨m - 1, by omega⟩
  have hcast := num_compositions_succ_cast m' n
  have hiL : i < (compositions (m' + 1) n).length := by
    rw [compositions_length]
    omega
  rw [simplex_grid_eq_compositions (m' + 1) n (by omega)]
  obtain ⟨hlen, hsum, hpos⟩ :=
    compositions_mem m' n _ (compositions_getD_mem m' n i hiL)
  rw [simplex_index_eq_rec_aux (m' + 1) n _ (by omega) hlen hpos hsum,
    rec_eq_countP m' n _ hlen hpos hsum,
    sorted_countP (compositions (m' + 1) n) (compositions_pairwise m' n) i hiL]

theorem simplex_grid_simplex_index_round_trip_witness :
    (1 ≤ 3 ∧ ((6 : ℕ) : ℤ) < num_compositions (3 : ℤ) (4 : ℤ)) ∧
      simplex_index ((simplex_grid 3 4).getD 6 []) 3 ((4 : ℕ) : ℤ) = ((6 : ℕ) : ℤ) :=
  ⟨⟨by decide, by decide⟩, simplex_grid_simplex_index_round_trip 3 4 6 (by decide) (by decide)⟩

/-- C4: For every m >= 1, n >= 0 and every valid composition vector x
(length m, nonnegative entries, sum n), the iterative ranker
`simplex_index(x, m, n)` and the recursive ranker
`simplex_index_rec(x, m, n)` return the same value. -/
theorem simplex_index_eq_simplex_index_rec (m n : ℕ) (x : List ℤ) (hm : 1 ≤ m)
    (hlen : x.length = m) (hpos : ∀ e ∈ x, 0 ≤ e) (hsum : x.sum = (n : ℤ)) :
    simplex_index x m (n : ℤ) = simplex_index_rec x m (n : ℤ) :=
  simplex_index_eq_rec_aux m n x hm hlen hpos hsum

theorem simplex_index_eq_simplex_index_rec_witness :
    (1 ≤ 3 ∧ ([1, 1, 2] : List ℤ).length = 3 ∧ (∀ e ∈ ([1, 1, 2] : List ℤ), 0 ≤ e) ∧
        ([1, 1, 2] : List ℤ).sum = ((4 : ℕ) : ℤ)) ∧
      simplex_index [1, 1, 2] 3 ((4 : ℕ) : ℤ) = simplex_index_rec [1, 1, 2] 3 ((4 : ℕ) : ℤ) :=
  ⟨⟨by decide, by decide, by decide, by decide⟩,
    simplex_index_eq_simplex_index_rec 3 4 [1, 1, 2] (by decide) (by decide) (by decide)
      (by decide)⟩

/-- C5 (code bug witness): for m = 2, n = 0 the generator does not
terminate after `L = num_compositions(2, 0) = 1` yields: it reaches a
second yield, whose value `[1, -1]` is not even a grid point.  (The
resumption after the first yield has `h - 1 = 1 != 0`, reads
`val = x[1] = 0`, writes `x[1] = val - 1 = -1`, increments `x[0]`, and
since `val != 1` resets `h = m`, so the generator keeps producing
vectors forever instead of returning.) -/
theorem generate_does_not_terminate_after_L_yields :
    num_compositions 2 0 = 1 ∧ genNth 2 (genInit 2 0) 1 = some [1, -1] := by
  constructor
  · decide
  · decide

/-- C6: row 0 of `simplex_grid(m, n)` is (0, ..., 0, n) and row L-1 is
(n, 0, ..., 0). -/
theorem simplex_grid_first_and_last_row (m n : ℕ) (hm : 1 ≤ m) :
    (simplex_grid m n).head? = some (List.replicate (m - 1) 0 ++ [(n : ℤ)]) ∧
    (simplex_grid m n).getLast? = some ((n : ℤ) :: List.replicate (m - 1) 0) := by
  obtain ⟨m', rfl⟩ : ∃ m', m = m' + 1 := ⟨m - 1, by omega⟩
  rw [simplex_grid_eq_compositions (m' + 1) n (by omega),
    show (m' + 1) - 1 = m' from by omega]
  exact ⟨compositions_head m' n, compositions_getLast m' n⟩

theorem simplex_grid_first_and_last_row_witness :
    1 ≤ 3 ∧ ((simplex_grid 3 4).head? = some (List.replicate (3 - 1) 0 ++ [((4 : ℕ) : ℤ)]) ∧
      (simplex_grid 3 4).getLast? = some (((4 : ℕ) : ℤ) :: List.replicate (3 - 1) 0)) :=
  ⟨by decide, simplex_grid_first_and_last_row 3 4 (by decide)⟩

/-- C7: indexed access `SimplexGrid(m, n)[rank]` raises an out-of-range
error exactly when rank is not in [0, size-1]; for rank in [0, size-1]
it returns row `rank` of `simplex_grid(m, n)`, without modifying the
facade's state (m, n, size). -/
theorem getitem_out_of_range_and_value (m n : ℕ) (idx : ℤ) (hm : 1 ≤ m) :
    ((SimplexGrid.make (m : ℤ) (n : ℤ)).getitem idx).2 = SimplexGrid.make (m : ℤ) (n : ℤ) ∧
    (¬ (0 ≤ idx ∧ idx < num_compositions (m : ℤ) (n : ℤ)) →
      ((SimplexGrid.make (m : ℤ) (n : ℤ)).getitem idx).1 =
        Except.error indexOutOfRangeMsg) ∧
    (0 ≤ idx → idx < num_compositions (m : ℤ) (n : ℤ) →
      ((SimplexGrid.make (m : ℤ) (n : ℤ)).getitem idx).1 =
        Except.ok ((simplex_grid m n).getD idx.toNat [])) := by
  refine ⟨rfl, ?_, ?_⟩
  · intro hbad
    rw [getitem_fst_eq, make_size, if_pos hbad]
  · intro h0 hlt
    rw [getitem_fst_eq, make_size, if_neg (not_not_intro ⟨h0, hlt⟩)]
    obtain ⟨m', rfl⟩ : ∃ m', m = m' + 1 := ⟨m - 1, by omega⟩
    have hcast := num_compositions_succ_cast m' n
    have hmt : (SimplexGrid.make (((m' + 1 : ℕ)) : ℤ) ((n : ℕ) : ℤ)).m.toNat = m' + 1 := by
      show (((m' + 1 : ℕ)) : ℤ).toNat = m' + 1
      omega
    have hnt : (SimplexGrid.make (((m' + 1 : ℕ)) : ℤ) ((n : ℕ) : ℤ)).n.toNat = n := by
      show ((n : ℕ) : ℤ).toNat = n
      omega
    rw [hmt, hnt]
    have hidx : idx.toNat < (compositions (m' + 1) n).length := by
      rw [compositions_length]
      omega
    rw [genNth_eq m' n idx.toNat hidx,
      simplex_grid_eq_compositions (m' + 1) n (by omega)]

theorem getitem_out_of_range_and_value_witness :
    (1 ≤ 3 ∧
      ((SimplexGrid.make ((3 : ℕ) : ℤ) ((4 : ℕ) : ℤ)).getitem 2).1 = Except.ok [0, 2, 2] ∧
      ((SimplexGrid.make ((3 : ℕ) : ℤ) ((4 : ℕ) : ℤ)).getitem 15).1 =
        Except.error indexOutOfRangeMsg ∧
      ((SimplexGrid.make ((3 : ℕ) : ℤ) ((4 : ℕ) : ℤ)).getitem (-1)).1 =
        Except.error indexOutOfRangeMsg) ∧
    ((SimplexGrid.make ((3 : ℕ) : ℤ) ((4 : ℕ) : ℤ)).getitem 2).2 =
      SimplexGrid.make ((3 : ℕ) : ℤ) ((4 : ℕ) : ℤ) ∧
    ((SimplexGrid.make ((3 : ℕ) : ℤ) ((4 : ℕ) : ℤ)).getitem 2).1 =
      Except.ok ((simplex_grid 3 4).getD (2 : ℤ).toNat []) :=
  ⟨⟨by decide, by rfl, by rfl, by rfl⟩,
    (getitem_out_of_range_and_value 3 4 2 (by decide)).1,
    (getitem_out_of_range_and_value 3 4 2 (by decide)).2.2 (by decide) (by decide)⟩

/-- C8 counterexample: for invalid arguments (`m < 1` or `n < 0`)
`num_compositions` does not fail with an InvalidArgument condition; the
underlying `scipy.misc.comb(N, k, exact=True)` returns 0, and the facade
constructor likewise succeeds with `size = 0`. -/
theorem num_compositions_invalid_args_return_zero :
    num_compositions 0 5 = 0 ∧ num_compositions 3 (-1) = 0 ∧
      (SimplexGrid.make 0 (-1)).size = 0 := by
  refine ⟨by decide, by decide, by decide⟩

/-- C8 (amended): `num_compositions(m, n)` never raises: it returns the
exact binomial coefficient `C(n+m-1, m-1)` when `m >= 1` and `n >= 0`,
and returns 0 when `m < 1` or `n < 0` (the out-of-range convention of
`scipy.misc.comb`); the facade constructor always succeeds and stores
this value as `size`. -/
theorem num_compositions_total_behavior (m n : ℤ) :
    num_compositions m n =
      (if 1 ≤ m ∧ 0 ≤ n then ((n.toNat + m.toNat - 1).choose (m.toNat - 1) : ℤ) else 0) ∧
    (SimplexGrid.make m n).size = num_compositions m n := by
  refine ⟨?_, rfl⟩
  by_cases h : 1 ≤ m ∧ 0 ≤ n
  · rw [if_pos h]
    obtain ⟨h1, h2⟩ := h
    have hc := num_compositions_cast m.toNat n.toNat (by omega)
    rw [show ((m.toNat : ℕ) : ℤ) = m from by omega,
      show ((n.toNat : ℕ) : ℤ) = n from by omega] at hc
    exact hc
  · rw [if_neg h, num_compositions, comb, if_pos (by omega)]

/-- C9 counterexample: the vector object yielded at step 0 of
`SimplexGrid(3, 4).generate()` is the generator's working array itself;
after the generator advances one step it holds `[0, 1, 3]`, no longer
row 0 = `[0, 0, 4]` of `simplex_grid(3, 4)`. -/
theorem yielded_vector_mutated_by_later_steps :
    yieldedValueLater 3 4 0 1 = [0, 1, 3] ∧
      (simplex_grid 3 4).getD 0 [] = [0, 0, 4] ∧
      ([0, 1, 3] : List ℤ) ≠ [0, 0, 4] := by
  refine ⟨by decide, by decide, by decide⟩

/-- C9 (amended): composition vectors yielded by the generator are not
immutable: every yield returns the same working array, so the object
obtained at step i, observed after k further advances, holds row i+k of
`simplex_grid(m, n)` (its value equals row i only at the moment it is
yielded, k = 0). -/
theorem yielded_vector_holds_current_row (m n i k : ℕ) (hm : 1 ≤ m)
    (hik : i + k < Nat.choose (n + m - 1) (m - 1)) :
    yieldedValueLater m n i k = (simplex_grid m n).getD (i + k) [] := by
  obtain ⟨m', rfl⟩ : ∃ m', m = m' + 1 := ⟨m - 1, by omega⟩
  rw [show n + (m' + 1) - 1 = n + m' from by omega,
    show (m' + 1) - 1 = m' from by omega] at hik
  have hik' : i + k < (compositions (m' + 1) n).length := by
    rw [compositions_length]
    exact hik
  obtain ⟨s, hrun, hsx, _⟩ := gen_inv m' n (i + k) hik'
  rw [simplex_grid_eq_compositions (m' + 1) n (by omega)]
  show (match genRun (m' + 1) (i + k) (genInit (m' + 1) n) with
    | some s => s.x
    | none => []) = _
  rw [hrun]
  exact hsx

theorem yielded_vector_holds_current_row_witness :
    (1 ≤ 3 ∧ 0 + 1 < Nat.choose (4 + 3 - 1) (3 - 1)) ∧
      yieldedValueLater 3 4 0 1 = (simplex_grid 3 4).getD (0 + 1) [] :=
  ⟨⟨by decide, by decide⟩, yielded_vector_holds_current_row 3 4 0 1 (by decide) (by decide)⟩

/-- C10: in the batch enumerator, at every loop iteration
i = k+1 in [1, L-1] the pointer after the decrement satisfies
`1 <= h <= m-1`, so the accesses `x[h]`, `x[h-1]`, `x[m-1]` stay inside
the length-m working vector and the loop never reaches the exhausted
state h = 0 before all L rows are written. -/
theorem simplex_grid_pointer_in_bounds (m n k : ℕ) (hm : 1 ≤ m)
    (hk : k + 1 < Nat.choose (n + m - 1) (m - 1)) :
    1 ≤ (batchRun m k (batchInit m n)).h - 1 ∧
    (batchRun m k (batchInit m n)).h - 1 ≤ (m : ℤ) - 1 ∧
    (batchRun m k (batchInit m n)).x.length = m := by
  obtain ⟨m', rfl⟩ : ∃ m', m = m' + 1 := ⟨m - 1, by omega⟩
  rw [show n + (m' + 1) - 1 = n + m' from by omega,
    show (m' + 1) - 1 = m' from by omega] at hk
  have hk1 : k + 1 < (compositions (m' + 1) n).length := by
    rw [compositions_length]
    exact hk
  have hkL : k < (compositions (m' + 1) n).length := by omega
  obtain ⟨hx, _, hh⟩ := batch_inv m' n k hkL
  have hn1 : 1 ≤ n := by
    by_contra hcon
    have hn0 : n = 0 := by omega
    subst hn0
    rw [compositions_zero_right] at hk1
    simp at hk1
  obtain ⟨qq, aa, vv, tt, haa, hvv, hxk, hxk1⟩ := compositions_steprel m' n k hk1
  obtain ⟨hlenk, _, _⟩ := compositions_mem m' n _ (compositions_getD_mem m' n k hkL)
  have hlen2 : m' + 1 = qq.length + 2 + tt := by
    rw [hxk] at hlenk
    simp at hlenk
    omega
  have htzk : trailZeros ((compositions (m' + 1) n).getD k []) = tt := by
    rw [hxk, show qq ++ aa :: vv :: List.replicate tt 0 =
      (qq ++ [aa]) ++ vv :: List.replicate tt 0 from by simp]
    exact trailZeros_spec _ vv (by omega) tt
  rw [hh hn1, htzk]
  refine ⟨by omega, by omega, ?_⟩
  rw [hx]
  exact hlenk

theorem simplex_grid_pointer_in_bounds_witness :
    (1 ≤ 3 ∧ 0 + 1 < Nat.choose (4 + 3 - 1) (3 - 1)) ∧
      (1 ≤ (batchRun 3 0 (batchInit 3 4)).h - 1 ∧
        (batchRun 3 0 (batchInit 3 4)).h - 1 ≤ ((3 : ℕ) : ℤ) - 1 ∧
        (batchRun 3 0 (batchInit 3 4)).x.length = 3) :=
  ⟨⟨by decide, by decide⟩, simplex_grid_pointer_in_bounds 3 4 0 (by decide) (by decide)⟩
